import Mathlib

/-!
Shallow embedding of the peptide-predictor core pipeline
(`src/api/services/cleavage.py`, `src/api/services/peptides.py`,
`src/api/services/bioactivity.py`, `src/api/services/ptm_detector.py`,
`src/api/config.py`).

Sequences are `List Char`.  Python slices `s[a:b]` (with nonnegative
indices) become `seqSlice`; regex scans over the fixed patterns of
`Config.REGEX_PATTERNS` are modelled as explicit left-to-right,
non-overlapping scanners.  Python `float` arithmetic in the bioactivity
heuristic and the overlap computation is modelled over `ℚ`; every
comparison relevant to the claims is far from a binary-rounding boundary.
-/

namespace PeptidePredictor

/-- One residue of the matched dibasic alphabet: `aa in 'KR'`. -/
def basicAA (c : Char) : Bool := c == 'K' || c == 'R'

/-- Python `s[i]` read with a harmless default (every use is guarded
so the default is never consulted on the paths the theorems talk about). -/
def getCh (s : List Char) (i : Nat) : Char := s.getD i ' '

/-- Python slice `s[a:b]` for `0 ≤ a`, `0 ≤ b` (clamping like Python). -/
def seqSlice (s : List Char) (a b : Nat) : List Char := (s.take b).drop a

/-- Python `needle in hay` on strings, over char lists. -/
def containsSub (needle hay : List Char) : Bool :=
  hay.tails.any (fun t => needle.isPrefixOf t)

/-- `api.models.schemas.CleavageSite`: `{position, motif, index}`. -/
structure CleavageSite where
  position : Nat
  motif : List Char
  index : Nat
deriving DecidableEq, Repr

/-- The peptide dict built by `PeptideExtractor` (fields that the code
ever writes; constant bookkeeping fields kept for fidelity). -/
structure Pep where
  sequence : List Char
  start : Nat
  end_ : Nat
  length_ : Nat
  inRange : Bool
  cleavageMotifN : List Char
  cleavageMotifC : List Char
  cleavageMotif : List Char
  bioactivityScore : ℚ
  bioactivitySource : String
  confidenceScore : Option Int
  confidenceBadge : Option String
  peptideType : Option String
  cleavedBy : Option String
deriving DecidableEq, Repr

/-- A default `Pep` (used only as the `getD` fallback in closed
statements about concrete outputs). -/
def dPep : Pep :=
  ⟨[], 0, 0, 0, false, [], [], [], 0, "none", none, none, none, none⟩

/-! ### Config (`src/api/config.py`) -/

/-- `Config.OPTIMAL_PEPTIDE_MIN_LENGTH`. -/
def OPTIMAL_PEPTIDE_MIN_LENGTH : Nat := 5
/-- `Config.OPTIMAL_PEPTIDE_MAX_LENGTH`. -/
def OPTIMAL_PEPTIDE_MAX_LENGTH : Nat := 25
/-- `Config.PCSK567_MIN_LENGTH`. -/
def PCSK567_MIN_LENGTH : Nat := 50
/-- `Config.PCSK567_MAX_LENGTH`. -/
def PCSK567_MAX_LENGTH : Nat := 500

/-- The four entries of `Config.REGEX_PATTERNS`, as symbolic tags. -/
inductive Pat where
  | strictP | permissiveP | ultraP | pcskP
deriving DecidableEq, Repr

/-- `Config.get_regex_pattern`: dictionary lookup with the `"strict"`
pattern as the default for every unknown mode string. -/
def getRegexPattern (mode : String) : Pat :=
  if mode = "strict" then .strictP
  else if mode = "permissive" then .permissiveP
  else if mode = "ultra-permissive" then .ultraP
  else if mode = "pcsk567" then .pcskP
  else .strictP

/-! ### Regex scanners

`regex.finditer` / `re.finditer` on the fixed patterns: leftmost,
non-overlapping matches; after a match of length `n` the scan resumes
`n` characters later, otherwise it advances by one. -/

/-- `KK|KR|RR|RK` holds at `p` (both residues basic). -/
def dibasicAt (s : List Char) (p : Nat) : Bool :=
  basicAA (getCh s p) && basicAA (getCh s (p + 1))

/-- The lookahead's excluded class `[RKILPVH]`. -/
def badFollow (c : Char) : Bool :=
  (['R', 'K', 'I', 'L', 'P', 'V', 'H'] : List Char).contains c

/-- The full strict pattern `(?<!K|R)(?:KK|KR|RR|RK)(?=[^RKILPVH]|$)`
holds at `p` of the search region. -/
def strictOk (s : List Char) (p : Nat) : Bool :=
  dibasicAt s p &&
  (p == 0 || !basicAA (getCh s (p - 1))) &&
  (decide (s.length ≤ p + 2) || !badFollow (getCh s (p + 2)))

/-- The permissive pattern `(?:KK|KR|RR|RK)` holds at `p`. -/
def permOk (s : List Char) (p : Nat) : Bool := dibasicAt s p

/-- `'A' ≤ c ≤ 'Z'` (the `[A-Z]` class). -/
def isUpperAZ (c : Char) : Bool := decide ('A' ≤ c) && decide (c ≤ 'Z')

/-- The PCSK5/6/7 pattern `R[A-Z](?:K|R)R` holds at `p`. -/
def pcskOk (s : List Char) (p : Nat) : Bool :=
  (getCh s p == 'R') && isUpperAZ (getCh s (p + 1)) &&
  basicAA (getCh s (p + 2)) && (getCh s (p + 3) == 'R')

/-- Fuel-driven worker for `scan2` (structural recursion so that the
scan computes by kernel reduction; the fuel is always sufficient). -/
def scan2Fuel (ok : List Char → Nat → Bool) (s : List Char) :
    Nat → Nat → List Nat
  | 0, _ => []
  | fuel + 1, p =>
      if p + 2 ≤ s.length then
        if ok s p then p :: scan2Fuel ok s fuel (p + 2)
        else scan2Fuel ok s fuel (p + 1)
      else []

/-- Non-overlapping scan for a 2-character pattern. -/
def scan2 (ok : List Char → Nat → Bool) (s : List Char) (p : Nat) : List Nat :=
  scan2Fuel ok s (s.length + 1 - p) p

/-- Fuel-driven worker for `scan1`. -/
def scan1Fuel (ok : List Char → Nat → Bool) (s : List Char) :
    Nat → Nat → List Nat
  | 0, _ => []
  | fuel + 1, p =>
      if p + 1 ≤ s.length then
        if ok s p then p :: scan1Fuel ok s fuel (p + 1)
        else scan1Fuel ok s fuel (p + 1)
      else []

/-- Non-overlapping scan for a 1-character pattern (the `(?:K|R)`
entry; never reached by `find_sites`, kept for totality of the config). -/
def scan1 (ok : List Char → Nat → Bool) (s : List Char) (p : Nat) : List Nat :=
  scan1Fuel ok s (s.length + 1 - p) p

/-- Fuel-driven worker for `scan4`. -/
def scan4Fuel (ok : List Char → Nat → Bool) (s : List Char) :
    Nat → Nat → List Nat
  | 0, _ => []
  | fuel + 1, p =>
      if p + 4 ≤ s.length then
        if ok s p then p :: scan4Fuel ok s fuel (p + 4)
        else scan4Fuel ok s fuel (p + 1)
      else []

/-- Non-overlapping scan for a 4-character pattern. -/
def scan4 (ok : List Char → Nat → Bool) (s : List Char) (p : Nat) : List Nat :=
  scan4Fuel ok s (s.length + 1 - p) p

/-- Match starts for each configured pattern over the search region. -/
def scanPat : Pat → List Char → List Nat
  | .strictP, r => scan2 strictOk r 0
  | .permissiveP, r => scan2 permOk r 0
  | .ultraP, r => scan1 (fun s p => basicAA (getCh s p)) r 0
  | .pcskP, r => scan4 pcskOk r 0

/-- Length of the text consumed by one match of each pattern. -/
def patLen : Pat → Nat
  | .strictP => 2
  | .permissiveP => 2
  | .ultraP => 1
  | .pcskP => 4

/-- Site built in the strict/permissive branch of `find_sites`:
`position = absolute_position + 2`, `motif = match.group()`. -/
def mkSiteP (n sl : Nat) (r : List Char) (p : Nat) : CleavageSite :=
  ⟨sl + p + 2, seqSlice r p (p + n), sl + p⟩

/-- The strict-mode acceptance loop of `find_sites`: a match at absolute
index `a` is kept iff no site was kept yet or
`a - previous.position ≥ min_spacing`; on acceptance the previous
cleavage point becomes `a + 2`. -/
def strictAcceptGo (sl msp : Nat) (r : List Char) :
    Option Nat → List Nat → List CleavageSite
  | _, [] => []
  | none, p :: t =>
      mkSiteP 2 sl r p :: strictAcceptGo sl msp r (some (sl + p + 2)) t
  | some pp, p :: t =>
      if pp + msp ≤ sl + p then
        mkSiteP 2 sl r p :: strictAcceptGo sl msp r (some (sl + p + 2)) t
      else strictAcceptGo sl msp r (some pp) t

/-- `CleavageDetector._find_pcsk567_sites`: every `R[A-Z](?:K|R)R` match;
cleavage point 4 residues after the match start. -/
def pcskSites (seq : List Char) (sl : Nat) : List CleavageSite :=
  (scan4 pcskOk (seq.drop sl) 0).map
    (fun p => ⟨sl + p + 4, seqSlice (seq.drop sl) p (p + 4), sl + p⟩)

/-! ### Ultra-permissive detection -/

/-- Fuel-driven worker for `rfScan`. -/
def rfScanFuel (snd : Char) (s : List Char) :
    Nat → Nat → List (Nat × Nat)
  | 0, _ => []
  | fuel + 1, p =>
      if p + 2 ≤ s.length then
        if getCh s p == 'R' && getCh s (p + 1) == snd then
          if p + 3 ≤ s.length && getCh s (p + 2) == 'G' then
            (p, 3) :: rfScanFuel snd s fuel (p + 3)
          else
            (p, 2) :: rfScanFuel snd s fuel (p + 2)
        else rfScanFuel snd s fuel (p + 1)
      else []

/-- `re.finditer` for the amidation patterns `RF(?:G)?` / `RY(?:G)?`:
returns `(start, matchLength)` pairs, greedy on the optional `G`,
non-overlapping. -/
def rfScan (snd : Char) (s : List Char) (p : Nat) : List (Nat × Nat) :=
  rfScanFuel snd s (s.length + 1 - p) p

/-- The lookback loop `for lookback in range(1, min(51, rf_start + 1))`:
position of the nearest preceding K/R within 50 residues, if any. -/
def lookbackBasic (s : List Char) (q : Nat) : Option Nat :=
  ((List.range' 1 (min 50 q)).find? (fun l => basicAA (getCh s (q - l)))).map
    (fun l => q - l)

/-- One RF-amide site dict (already in `CleavageSite` shape; the
`rf_position`/`rf_end` entries of the Python dict are never read). -/
def mkRfSite (sl : Nat) (r : List Char) (qm : Nat × Nat) : CleavageSite :=
  let rfMotif := seqSlice r qm.1 (qm.1 + qm.2)
  match lookbackBasic r qm.1 with
  | some cp =>
      ⟨sl + cp + 1, getCh r cp :: '.' :: '.' :: '.' :: rfMotif, sl + cp⟩
  | none =>
      ⟨sl + qm.1 + qm.2,
       ('S' :: 'T' :: 'A' :: 'R' :: 'T' :: '.' :: '.' :: '.' :: []) ++ rfMotif,
       sl + qm.1⟩

/-- Pass 1 of `_find_ultra_permissive_sites`: all `RF(?:G)?` matches,
then all `RY(?:G)?` matches, each resolved through the lookback. -/
def rfamideSites (sl : Nat) (r : List Char) : List CleavageSite :=
  (rfScan 'F' r 0).map (mkRfSite sl r) ++ (rfScan 'Y' r 0).map (mkRfSite sl r)

/-- Pass 2: every isolated K/R whose absolute index is not already an
RF-amide site index. -/
def singleBasicSites (sl : Nat) (r : List Char) (rfs : List CleavageSite) :
    List CleavageSite :=
  (List.range r.length).filterMap (fun i =>
    if basicAA (getCh r i) && !(rfs.any (fun s => s.index == sl + i)) then
      some ⟨sl + i + 1, [getCh r i], sl + i⟩
    else none)

/-- Stable insertion: `x` goes in front of the first `y` with
`rel x y`; elements with `¬ rel x y` stay in front of `x`. -/
def insertBy {α : Type} (rel : α → α → Bool) (x : α) : List α → List α
  | [] => [x]
  | y :: ys => if rel x y then x :: y :: ys else y :: insertBy rel x ys

/-- Stable sort (the semantics of Python's stable `sorted`/`list.sort`
for the comparator encoded in `rel`). -/
def sortBy {α : Type} (rel : α → α → Bool) : List α → List α
  | [] => []
  | x :: xs => insertBy rel x (sortBy rel xs)

/-- Ascending-by-`index` comparator (`key=lambda s: s.index`). -/
def siteIdxLe (a b : CleavageSite) : Bool := decide (a.index ≤ b.index)

/-- `CleavageDetector._find_ultra_permissive_sites`: single-basic sites,
then the RF-amide sites, stably sorted by `index`. -/
def ultraSites (seq : List Char) (sl : Nat) : List CleavageSite :=
  let r := seq.drop sl
  let rfs := rfamideSites sl r
  sortBy siteIdxLe (singleBasicSites sl r rfs ++ rfs)

/-- `CleavageDetector.find_sites`. -/
def findSites (seq : List Char) (mode : String) (sl msp : Nat) :
    List CleavageSite :=
  if mode = "ultra-permissive" then ultraSites seq sl
  else if mode = "pcsk567" then pcskSites seq sl
  else
    let r := seq.drop sl
    let pat := getRegexPattern mode
    if mode = "strict" then strictAcceptGo sl msp r none (scanPat pat r)
    else (scanPat pat r).map (mkSiteP (patLen pat) sl r)

/-! ### Peptide extraction (`src/api/services/peptides.py`) -/

/-- The dibasic motif list `['KK', 'KR', 'RR', 'RK']`. -/
def dibasicMotifs : List (List Char) :=
  [['K', 'K'], ['K', 'R'], ['R', 'R'], ['R', 'K']]

/-- `PeptideExtractor._get_terminal_motif` (returns the Python strings
`'RF'`, `'RY'`, `'RFG'`, `'RYG'`, `'G'` or `'none'` as char lists). -/
def getTerminalMotif (s : List Char) : List Char :=
  if s.length < 2 then ['n', 'o', 'n', 'e']
  else if 3 ≤ s.length &&
      (s.drop (s.length - 3) == ['R', 'F', 'G'] ||
       s.drop (s.length - 3) == ['R', 'Y', 'G']) then
    s.drop (s.length - 3)
  else if s.drop (s.length - 2) == ['R', 'F'] ||
      s.drop (s.length - 2) == ['R', 'Y'] then
    s.drop (s.length - 2)
  else if getCh s (s.length - 1) == 'G' then ['G']
  else ['n', 'o', 'n', 'e']

/-- `PeptideExtractor._calculate_confidence` (plain int arithmetic). -/
def calcConfidence (pseq : List Char) (siteS siteE : CleavageSite)
    (length : Int) : Int :=
  let dots : List Char := ['.', '.', '.']
  let s1 : Int :=
    if containsSub dots siteS.motif then 50
    else if dibasicMotifs.contains siteS.motif then 50
    else 15
  let s2 : Int := if containsSub dots siteE.motif then 50 else 0
  let term := getTerminalMotif pseq
  let s3 : Int :=
    if [['R', 'F'], ['R', 'Y'], ['R', 'F', 'G'], ['R', 'Y', 'G']].contains term
    then 30
    else if term == ['G'] then 15
    else 0
  let s4 : Int :=
    if 5 ≤ length ∧ length ≤ 15 then 20
    else if 15 < length ∧ length ≤ 30 then 10
    else if 30 < length ∧ length ≤ 50 then 5
    else if 100 < length then -30
    else 0
  let score := s1 + s2 + s3 + s4
  let score :=
    if containsSub dots siteS.motif || containsSub dots siteE.motif then
      max score 90
    else score
  min (max score 0) 100

/-- `PeptideExtractor._get_cleavage_label`. -/
def getCleavageLabel (siteS siteE : CleavageSite) : List Char :=
  let dots : List Char := ['.', '.', '.']
  if containsSub dots siteS.motif then siteS.motif
  else if containsSub dots siteE.motif then siteE.motif
  else if dibasicMotifs.contains siteS.motif then siteS.motif
  else siteS.motif ++ ['→'] ++ siteE.motif

/-- `PeptideExtractor._get_confidence_badge`. -/
def getConfidenceBadge (score : Int) : String :=
  if 80 ≤ score then "high"
  else if 60 ≤ score then "medium"
  else if 40 ≤ score then "low"
  else "very_low"

/-- One candidate of the ultra-permissive double loop, from a pair of
sorted sites, or `none` when a `continue` fires (the guards
`MAX_DISTANCE = 100`, `MAX_LENGTH = 50`, minimum length 3,
`MIN_CONFIDENCE = 30`). -/
def mkUltraCand (seq : List Char) (siteS siteE : CleavageSite) : Option Pep :=
  let startPos := siteS.position
  let endPos :=
    if containsSub ['R', 'F'] siteE.motif || containsSub ['R', 'Y'] siteE.motif
    then siteE.position
    else siteE.index
  let d : Int := (endPos : Int) - (startPos : Int)
  if d > 100 || d > 50 then none
  else if d < 3 then none
  else
    let pseq := seqSlice seq startPos endPos
    let conf := calcConfidence pseq siteS siteE d
    if conf < 30 then none
    else some
      { sequence := pseq
        start := startPos + 1
        end_ := endPos
        length_ := d.toNat
        inRange := decide (OPTIMAL_PEPTIDE_MIN_LENGTH ≤ d.toNat) &&
                   decide (d.toNat ≤ OPTIMAL_PEPTIDE_MAX_LENGTH)
        cleavageMotifN := siteS.motif
        cleavageMotifC := siteE.motif
        cleavageMotif := getCleavageLabel siteS siteE
        bioactivityScore := 0
        bioactivitySource := "none"
        confidenceScore := some conf
        confidenceBadge := some (getConfidenceBadge conf)
        peptideType := none
        cleavedBy := none }

/-- All ordered pairs `(l[i], l[j])` with `i < j`, in the order of the
nested `for i / for j in range(i+1, ...)` loops. -/
def sitePairs {α : Type} : List α → List (α × α)
  | [] => []
  | x :: xs => xs.map (fun y => (x, y)) ++ sitePairs xs

/-- `PeptideExtractor._calculate_overlap` over `ℚ`: the fields are the
stored 1-based `start` and inclusive `end`, so `end - start` here is one
less than the residue count. -/
def calcOverlap (p q : Pep) : ℚ :=
  let s1 : ℚ := p.start
  let e1 : ℚ := p.end_
  let s2 : ℚ := q.start
  let e2 : ℚ := q.end_
  if e1 ≤ s2 ∨ e2 ≤ s1 then 0
  else
    let ol := min e1 e2 - max s1 s2
    let ml := min (e1 - s1) (e2 - s2)
    if 0 < ml then ol / ml else 0

/-- `p.get('confidenceScore', 0)`. -/
def confOf (p : Pep) : Int := p.confidenceScore.getD 0

/-- Comparator of `sorted(..., key=confidenceScore, reverse=True)`. -/
def confGe (x y : Pep) : Bool := decide (confOf y ≤ confOf x)

/-- The keep-loop of `_remove_overlapping_peptides`: a candidate is
kept iff its overlap with every already-kept candidate is ≤ 0.7. -/
def dedupGo (kept : List Pep) : List Pep → List Pep
  | [] => kept
  | p :: rest =>
      if kept.any (fun k => decide ((7 : ℚ) / 10 < calcOverlap p k)) then
        dedupGo kept rest
      else dedupGo (kept ++ [p]) rest

/-- `PeptideExtractor._remove_overlapping_peptides`. -/
def removeOverlapping (ps : List Pep) : List Pep :=
  if ps.length ≤ 1 then ps else dedupGo [] (sortBy confGe ps)

/-- Comparator of the final
`sort(key=lambda p: (confidenceScore, -length), reverse=True)`. -/
def rankGe (x y : Pep) : Bool :=
  decide (confOf y < confOf x) ||
  (confOf x == confOf y && decide (x.length_ ≤ y.length_))

/-- `PeptideExtractor._extract_ultra_permissive` (the `signal_length`
argument is accepted but unused, as in the source). -/
def extractUltra (seq : List Char) (sites : List CleavageSite) (_sl : Nat) :
    List Pep :=
  if sites = [] then []
  else
    let sorted := sortBy siteIdxLe sites
    let cands := (sitePairs sorted).filterMap
      (fun ab => mkUltraCand seq ab.1 ab.2)
    let ded := removeOverlapping cands
    (sortBy rankGe ded).take 50

/-- The two fragments `_extract_pcsk567` emits for one site: the mature
form (≥ 10 aa after the cleavage point) and the prodomain (≥ 20 aa
between the signal peptide and the motif start). -/
def pcskFragments (seq : List Char) (sl : Nat) (site : CleavageSite) :
    List Pep :=
  let mature := seq.drop site.position
  let m : List Pep :=
    if 10 ≤ mature.length then
      [{ sequence := mature
         start := site.position + 1
         end_ := seq.length
         length_ := mature.length
         inRange := decide (PCSK567_MIN_LENGTH ≤ mature.length) &&
                    decide (mature.length ≤ PCSK567_MAX_LENGTH)
         cleavageMotifN := site.motif
         cleavageMotifC := ['E', 'N', 'D']
         cleavageMotif := site.motif
         bioactivityScore := 0
         bioactivitySource := "none"
         confidenceScore := none
         confidenceBadge := none
         peptideType := some "mature_form"
         cleavedBy := some "PCSK5/6/7" }]
    else []
  let pro := seqSlice seq sl site.index
  let p : List Pep :=
    if 20 ≤ pro.length then
      [{ sequence := pro
         start := sl + 1
         end_ := site.index
         length_ := pro.length
         inRange := decide (PCSK567_MIN_LENGTH ≤ pro.length) &&
                    decide (pro.length ≤ PCSK567_MAX_LENGTH)
         cleavageMotifN := ['S', 'I', 'G', 'N', 'A', 'L']
         cleavageMotifC := site.motif
         cleavageMotif := site.motif
         bioactivityScore := 0
         bioactivitySource := "none"
         confidenceScore := none
         confidenceBadge := none
         peptideType := some "prodomain"
         cleavedBy := some "PCSK5/6/7" }]
    else []
  m ++ p

/-- `PeptideExtractor._extract_pcsk567`. -/
def extractPcsk (seq : List Char) (sites : List CleavageSite) (sl : Nat) :
    List Pep :=
  if sites = [] then [] else sites.flatMap (pcskFragments seq sl)

/-- Peptide emitted between two cleavage points in the
strict/permissive walk. -/
def mkWalkPep (ps : List Char) (prev cur : Nat)
    (prevMotif curMotif : List Char) : Pep :=
  { sequence := ps
    start := prev + 1
    end_ := cur
    length_ := ps.length
    inRange := decide (OPTIMAL_PEPTIDE_MIN_LENGTH ≤ ps.length) &&
               decide (ps.length ≤ OPTIMAL_PEPTIDE_MAX_LENGTH)
    cleavageMotifN := prevMotif
    cleavageMotifC := curMotif
    cleavageMotif := curMotif
    bioactivityScore := 0
    bioactivitySource := "none"
    confidenceScore := none
    confidenceBadge := none
    peptideType := none
    cleavedBy := none }

/-- The trailing candidate after the last accepted site
(`# Dernier peptide`): emitted when the remaining tail is nonempty and
longer than the mode's minimum (3 for strict, 0 otherwise). -/
def trailingPep (seq : List Char) (isStrict : Bool) (prev : Nat)
    (prevMotif : List Char) : List Pep :=
  if prev < seq.length ∧
      (if isStrict then 3 else 0) < (seq.drop prev).length then
    [mkWalkPep (seq.drop prev) prev seq.length prevMotif ['E', 'N', 'D']]
  else []

/-- The strict/permissive site walk of `PeptideExtractor.extract`:
cursor `prev` starts at `signal_length`; strict mode requires the gap
`site.index - prev` to be at least `min_spacing` (skipping the site
entirely otherwise) and a body longer than 3; permissive keeps any
nonempty body. -/
def walkPeps (seq : List Char) (isStrict : Bool) (msp : Nat) :
    List CleavageSite → Nat → List Char → List Pep
  | [], prev, prevMotif => trailingPep seq isStrict prev prevMotif
  | site :: rest, prev, prevMotif =>
      if isStrict then
        if prev + msp ≤ site.index then
          (if 3 < (seqSlice seq prev site.index).length then
            [mkWalkPep (seqSlice seq prev site.index) prev site.index
              prevMotif site.motif]
           else []) ++
          walkPeps seq isStrict msp rest site.position site.motif
        else walkPeps seq isStrict msp rest prev prevMotif
      else
        (if 0 < (seqSlice seq prev site.index).length then
          [mkWalkPep (seqSlice seq prev site.index) prev site.index
            prevMotif site.motif]
         else []) ++
        walkPeps seq isStrict msp rest site.position site.motif

/-- `PeptideExtractor.extract`. -/
def extract (seq : List Char) (sites : List CleavageSite)
    (sl msp msites : Nat) (mode : String) : List Pep :=
  if mode = "ultra-permissive" then extractUltra seq sites sl
  else if mode = "pcsk567" then extractPcsk seq sites sl
  else if sites.length < msites then []
  else walkPeps seq (mode == "strict") msp sites sl
    ['S', 'I', 'G', 'N', 'A', 'L']

/-! ### Bioactivity heuristic (`src/api/services/bioactivity.py`) -/

/-- `peptide.endswith(suffix)`. -/
def endsWithL (suffix s : List Char) : Bool := suffix.isSuffixOf s

/-- The known-bioactive motif families (`known_bioactive_patterns`). -/
def knownBioactiveFamilies : List (List (List Char)) :=
  [[['S', 'N', 'S', 'Q', 'E'], ['P', 'G', 'K', 'Q', 'L'],
    ['R', 'L', 'E', 'R', 'L']],
   [['W', 'P', 'R', 'E', 'S'], ['L', 'Q', 'E', 'E', 'E'],
    ['H', 'L', 'E', 'A', 'E']],
   [['T', 'L', 'Q', 'P'], ['A', 'Q', 'E', 'E'], ['N', 'E', 'R', 'P']]]

/-- The score accumulation of `BioactivityPredictor.calculate_heuristic`
before the final clamp, over `ℚ` (only reached for a nonempty peptide).
Optional arguments are `Option`s; Python truthiness makes `some []` and
`some 0` behave like absence exactly where the code tests
`if cleavage_motif and ...` / `if full_protein_sequence and
peptide_end_position`. -/
def heuristicRaw (pep : List Char) (cm : Option (List Char))
    (fps : Option (List Char)) (pe : Option Nat) : ℚ :=
  let len : ℚ := pep.length
    let hydro : ℚ := pep.countP (fun c =>
      (['A', 'L', 'I', 'V', 'M', 'F', 'W', 'P'] : List Char).contains c)
    let score : ℚ := hydro / len * 30
    let positive : ℚ := pep.countP (fun c =>
      (['K', 'R', 'H'] : List Char).contains c)
    let negative : ℚ := pep.countP (fun c =>
      (['D', 'E'] : List Char).contains c)
    let score := score + (if 0 < positive then 10 else 0)
    let score := score + (if 0 < negative then 10 else 0)
    let score := score +
      (if OPTIMAL_PEPTIDE_MIN_LENGTH ≤ pep.length ∧
          pep.length ≤ OPTIMAL_PEPTIDE_MAX_LENGTH then 35
       else if pep.length < OPTIMAL_PEPTIDE_MIN_LENGTH then -10
       else if 100 < pep.length then -15
       else 0)
    let score := score + (if pep.contains 'C' then 8 else 0)
    let score := score + (if pep.count 'P' ≤ 2 then 7 else -5)
    let score := score + (if 6 ≤ pep.dedup.length then 5 else 0)
    let score := score +
      (if endsWithL ['R', 'F'] pep || endsWithL ['R', 'F', 'G'] pep then 25
       else if endsWithL ['R', 'Y'] pep || endsWithL ['R', 'Y', 'G'] pep then 25
       else 0)
    let score := score +
      (match cm with
       | some m =>
           if m ≠ [] ∧ (containsSub ['R', 'F'] m ∨ containsSub ['R', 'Y'] m)
           then 10 else 0
       | none => 0)
    let score := score + (knownBioactiveFamilies.map (fun fam =>
      if fam.any (fun motif => containsSub motif pep) then (15 : ℚ)
      else 0)).sum
    let score := score +
      (match fps, pe with
       | some f, some e =>
           if f ≠ [] ∧ e ≠ 0 then
             let isCTerm := f.length ≤ e + 5
             let hasG := endsWithL ['G'] pep
             let hasBasicAfter :=
               e < f.length ∧ (seqSlice f e (e + 2)).any (fun c => basicAA c)
             if isCTerm ∧ ¬ hasG ∧ ¬ hasBasicAfter then -20 else 0
           else 0
       | _, _ => 0)
    let score := score +
      (if pep.length < 5 ∧
          ¬ (endsWithL ['R', 'F'] pep ∨ endsWithL ['R', 'Y'] pep) then -15
       else 0)
    score + (if 1 / 2 < positive / len then -10 else 0)

/-- `BioactivityPredictor.calculate_heuristic`: 0 for the empty
peptide, otherwise the raw score clamped by
`max(min(score, 100), 0)`. -/
def calculateHeuristic (pep : List Char) (cm : Option (List Char))
    (fps : Option (List Char)) (pe : Option Nat) : ℚ :=
  if pep = [] then 0 else max (min (heuristicRaw pep cm fps pe) 100) 0

/-! ### PTM detection and rendering (`src/api/services/ptm_detector.py`) -/

/-- The `position` entry of a PTM dict (absent, an int, or a string
such as `'C-terminus'`). -/
inductive PtmPos where
  | none
  | int (i : Int)
  | str (s : String)
deriving DecidableEq, Repr

/-- A PTM dict (the entries `generate_modified_sequence` and the
claims read; the purely descriptive entries are omitted). -/
structure Ptm where
  type_ : String
  motif : List Char
  removesG : Bool
  position : PtmPos
  positions : List Int
deriving DecidableEq, Repr

/-- The amidation PTM dict returned by `detect_c_terminal_amidation`
for a given matched motif label. -/
def amidPtm (motif : List Char) : Ptm :=
  ⟨"C-terminal amidation", motif, true, PtmPos.str "C-terminus", []⟩

/-- The `for pattern, motif in patterns` loop of
`detect_c_terminal_amidation`: first of the anchored patterns
`^RR, ^RK, ^KR, ^KK, ^R, ^K` matching the residues after the
candidate. -/
def amidFromAfter (after : List Char) : Option Ptm :=
  if (['R', 'R'] : List Char).isPrefixOf after then
    some (amidPtm ['G', 'R', 'R'])
  else if (['R', 'K'] : List Char).isPrefixOf after then
    some (amidPtm ['G', 'R', 'K'])
  else if (['K', 'R'] : List Char).isPrefixOf after then
    some (amidPtm ['G', 'K', 'R'])
  else if (['K', 'K'] : List Char).isPrefixOf after then
    some (amidPtm ['G', 'K', 'K'])
  else if (['R'] : List Char).isPrefixOf after then
    some (amidPtm ['G', 'R'])
  else if (['K'] : List Char).isPrefixOf after then
    some (amidPtm ['G', 'K'])
  else none

/-- `PTMDetector.detect_c_terminal_amidation`.  `peptide_end` is the
1-based index of the candidate's last residue, as produced by the
extractor (a natural number). -/
def detectCAmid (pep : List Char) (fps : Option (List Char))
    (pe : Option Nat) : Option Ptm :=
  match fps, pe with
  | some f, some e =>
      if f = [] then none
      else if pep = [] ∨ ¬ endsWithL ['G'] pep then none
      else if f.length ≤ e then none
      else amidFromAfter (seqSlice f e (e + 3))
  | _, _ => none

/-- The cysteine renumbering of the `Disulfide bonds` branch: walk the
rendered list, replacing each not-yet-modified `"C"` cell with
`"C<n>"` until `limit` replacements are made. -/
def renumberCys (limit : Nat) :
    List String → Nat → Nat → List Nat → (List String × List Nat)
  | [], _, _, done => ([], done)
  | cell :: rest, i, found, done =>
      if cell = "C" ∧ ¬ done.contains i then
        if limit ≤ found + 1 then
          (("C" ++ toString (found + 1)) :: rest, i :: done)
        else
          let (rest', done') := renumberCys limit rest (i + 1) (found + 1) (i :: done)
          (("C" ++ toString (found + 1)) :: rest', done')
      else
        let (rest', done') := renumberCys limit rest (i + 1) found done
        (cell :: rest', done')

/-- One iteration of the PTM-application loop of
`generate_modified_sequence` over state (rendered cells, modified
cysteine indices). -/
def applyPtm (st : List String × List Nat) (ptm : Ptm) :
    List String × List Nat :=
  let (m, cys) := st
  if ptm.type_ = "C-terminal amidation" then (m ++ ["-NH₂"], cys)
  else if ptm.type_ = "N-terminal pyroglutamate" then
    (match m with
     | [] => (m, cys)
     | _ :: rest => ("pGlu" :: rest, cys))
  else if ptm.type_ = "Ghrelin acylation" then
    (match m with
     | "G" :: rest => ("G(C8:0)" :: rest, cys)
     | _ => (m, cys))
  else if ptm.type_ = "Disulfide bonds" then
    renumberCys ptm.positions.length m 0 0 cys
  else if ptm.type_ = "Tyrosine O-sulfation" then
    (match ptm.position with
     | PtmPos.int i =>
         let pos := i - 1
         if 0 ≤ pos ∧ pos < m.length ∧ m.getD pos.toNat "" = "Y" then
           (m.set pos.toNat "Y(SO₃)", cys)
         else (m, cys)
     | _ => (m, cys))
  else if ptm.type_ = "N-glycosylation" then
    (match ptm.position with
     | PtmPos.int i =>
         let pos := i - 1
         if 0 ≤ pos ∧ pos < m.length ∧ m.getD pos.toNat "" = "N" then
           (m.set pos.toNat "N(GlcNAc)", cys)
         else (m, cys)
     | _ => (m, cys))
  else (m, cys)

/-- `PTMDetector.generate_modified_sequence` (the computed-but-unread
`sorted_ptms` of the source is dead code and is not modelled). -/
def generateModified (seq : List Char) (ptms : List Ptm) : String :=
  if ptms = [] then String.mk seq
  else
    let m0 : List String := seq.map (fun c => Char.toString c)
    let hasCAmid := ptms.any
      (fun p => p.type_ == "C-terminal amidation" && p.removesG)
    let m1 :=
      if hasCAmid ∧ m0 ≠ [] ∧ m0.getLast? = some "G" then m0.dropLast
      else m0
    String.join (ptms.foldl applyPtm (m1, [])).1

/-! ### Spec-side overlap fraction

Definition following the spec's words for the refinement comparison of
claim C3: "overlap fraction (shared span over the shorter candidate's
length)" — the number of shared residues of the two 1-based inclusive
spans, divided by the residue count of the shorter candidate. -/

/-- The spec's overlap fraction of two candidates. -/
def specOverlapFrac (p q : Pep) : ℚ :=
  let shared : ℚ :=
    max 0 ((min (p.end_ : ℚ) (q.end_ : ℚ)) -
           (max (p.start : ℚ) (q.start : ℚ)) + 1)
  let shorter : ℚ :=
    min ((p.end_ : ℚ) - (p.start : ℚ) + 1) ((q.end_ : ℚ) - (q.start : ℚ) + 1)
  shared / shorter


/-! ### Lemmas and claim theorems -/

/- `Rat.mul`, `Rat.inv`, `Rat.add` and `Rat.sub` are `@[irreducible]`
in the library, which blocks `decide`-evaluation of the rational
arithmetic in the overlap computations; restore the default
reducibility locally so concrete runs of the pipeline reduce. -/
attribute [local semireducible] Rat.mul Rat.inv Rat.add Rat.sub

theorem scan2Fuel_congr {ok : List Char → Nat → Bool} {s : List Char} :
    ∀ (f1 f2 p : Nat), s.length + 1 - p ≤ f1 → s.length + 1 - p ≤ f2 →
      scan2Fuel ok s f1 p = scan2Fuel ok s f2 p := by
  intro f1
  induction f1 with
  | zero =>
      intro f2 p h1 h2
      rw [scan2Fuel]
      cases f2 with
      | zero => rw [scan2Fuel]
      | succ n => rw [scan2Fuel, if_neg (by omega)]
  | succ n ih =>
      intro f2 p h1 h2
      cases f2 with
      | zero =>
          rw [scan2Fuel, scan2Fuel]
          rw [if_neg (by omega)]
      | succ m =>
          rw [scan2Fuel, scan2Fuel]
          by_cases hlen : p + 2 ≤ s.length
          · rw [if_pos hlen, if_pos hlen]
            by_cases hok : ok s p = true
            · rw [if_pos hok, if_pos hok, ih m (p + 2) (by omega) (by omega)]
            · rw [if_neg hok, if_neg hok, ih m (p + 1) (by omega) (by omega)]
          · rw [if_neg hlen, if_neg hlen]

theorem scan2_eq (ok : List Char → Nat → Bool) (s : List Char) (p : Nat) :
    scan2 ok s p =
      if p + 2 ≤ s.length then
        if ok s p then p :: scan2 ok s (p + 2) else scan2 ok s (p + 1)
      else [] := by
  rw [scan2]
  by_cases hlen : p + 2 ≤ s.length
  · have hf : s.length + 1 - p = (s.length - p) + 1 := by omega
    rw [hf, scan2Fuel, if_pos hlen]
    by_cases hok : ok s p = true
    · rw [if_pos hok, if_pos hok, scan2,
        scan2Fuel_congr (s.length - p) (s.length + 1 - (p + 2)) (p + 2)
          (by omega) (by omega), if_pos hlen]
    · rw [if_neg hok, if_neg hok, scan2,
        scan2Fuel_congr (s.length - p) (s.length + 1 - (p + 1)) (p + 1)
          (by omega) (by omega), if_pos hlen]
  · rw [if_neg hlen]
    cases hf : s.length + 1 - p with
    | zero => rw [scan2Fuel]
    | succ n => rw [scan2Fuel, if_neg hlen]

theorem mem_scan2 {ok : List Char → Nat → Bool} {s : List Char} :
    ∀ {p i : Nat}, i ∈ scan2 ok s p →
      p ≤ i ∧ i + 2 ≤ s.length ∧ ok s i = true := by
  have main : ∀ (fuel : Nat) {p i : Nat}, i ∈ scan2Fuel ok s fuel p →
      p ≤ i ∧ i + 2 ≤ s.length ∧ ok s i = true := by
    intro fuel
    induction fuel with
    | zero =>
        intro p i h
        rw [scan2Fuel] at h
        exact absurd h (List.not_mem_nil i)
    | succ n ih =>
        intro p i h
        rw [scan2Fuel] at h
        split at h
        · split at h
          · rcases List.mem_cons.1 h with rfl | h
            · refine ⟨le_refl _, by assumption, by assumption⟩
            · have := ih h
              exact ⟨by omega, this.2.1, this.2.2⟩
          · have := ih h
            exact ⟨by omega, this.2.1, this.2.2⟩
        · exact absurd h (List.not_mem_nil i)
  intro p i h
  rw [scan2] at h
  exact main _ h

theorem mem_scan4 {ok : List Char → Nat → Bool} {s : List Char} :
    ∀ {p i : Nat}, i ∈ scan4 ok s p →
      p ≤ i ∧ i + 4 ≤ s.length ∧ ok s i = true := by
  have main : ∀ (fuel : Nat) {p i : Nat}, i ∈ scan4Fuel ok s fuel p →
      p ≤ i ∧ i + 4 ≤ s.length ∧ ok s i = true := by
    intro fuel
    induction fuel with
    | zero =>
        intro p i h
        rw [scan4Fuel] at h
        exact absurd h (List.not_mem_nil i)
    | succ n ih =>
        intro p i h
        rw [scan4Fuel] at h
        split at h
        · split at h
          · rcases List.mem_cons.1 h with rfl | h
            · refine ⟨le_refl _, by assumption, by assumption⟩
            · have := ih h
              exact ⟨by omega, this.2.1, this.2.2⟩
          · have := ih h
            exact ⟨by omega, this.2.1, this.2.2⟩
        · exact absurd h (List.not_mem_nil i)
  intro p i h
  rw [scan4] at h
  exact main _ h

theorem mem_rfScan {snd : Char} {s : List Char} :
    ∀ {p : Nat} {qm : Nat × Nat}, qm ∈ rfScan snd s p →
      p ≤ qm.1 ∧ 2 ≤ qm.2 ∧ qm.1 + qm.2 ≤ s.length := by
  have main : ∀ (fuel : Nat) {p : Nat} {qm : Nat × Nat},
      qm ∈ rfScanFuel snd s fuel p →
      p ≤ qm.1 ∧ 2 ≤ qm.2 ∧ qm.1 + qm.2 ≤ s.length := by
    intro fuel
    induction fuel with
    | zero =>
        intro p qm h
        rw [rfScanFuel] at h
        exact absurd h (List.not_mem_nil qm)
    | succ n ih =>
        intro p qm h
        rw [rfScanFuel] at h
        split at h
        · split at h
          · split at h
            · rename_i hlen hok hg
              simp only [Bool.and_eq_true, decide_eq_true_eq] at hg
              rcases List.mem_cons.1 h with rfl | h
              · simp only
                omega
              · have := ih h
                omega
            · rcases List.mem_cons.1 h with rfl | h
              · rename_i hlen hok hg
                simp only
                omega
              · have := ih h
                omega
          · have := ih h
            omega
        · exact absurd h (List.not_mem_nil qm)
  intro p qm h
  rw [rfScan] at h
  exact main _ h
theorem perm_reach {s : List Char} {i : Nat}
    (hd : permOk s i = true) (hlen : i + 2 ≤ s.length)
    (hlb : i = 0 ∨ basicAA (getCh s (i - 1)) = false) :
    ∀ p, p ≤ i → i ∈ scan2 permOk s p := by
  have main : ∀ n p, p ≤ i → i - p ≤ n → i ∈ scan2 permOk s p := by
    intro n
    induction n with
    | zero =>
        intro p hp hn
        have hpi : p = i := by omega
        subst hpi
        rw [scan2_eq, if_pos hlen, if_pos hd]
        exact List.mem_cons_self _ _
    | succ n ih =>
        intro p hp hn
        by_cases hpi : p = i
        · subst hpi
          rw [scan2_eq, if_pos hlen, if_pos hd]
          exact List.mem_cons_self _ _
        · have hplen : p + 2 ≤ s.length := by omega
          rw [scan2_eq, if_pos hplen]
          by_cases hok : permOk s p = true
          · rw [if_pos hok]
            have hp2 : p + 2 ≤ i := by
              by_contra hcon
              have hpi1 : p + 1 = i := by omega
              have hbp : basicAA (getCh s p) = true := by
                simp only [permOk, dibasicAt, Bool.and_eq_true] at hok
                exact hok.1
              rcases hlb with h0 | hb
              · omega
              · rw [show i - 1 = p by omega, hbp] at hb
                exact absurd hb (by simp)
            exact List.mem_cons_of_mem _ (ih (p + 2) hp2 (by omega))
          · rw [if_neg hok]
            exact ih (p + 1) (by omega) (by omega)
  exact fun p hp => main (i - p) p hp le_rfl

theorem mem_strictAcceptGo {sl msp : Nat} {r : List Char} :
    ∀ {ps : List Nat} {prev : Option Nat} {site : CleavageSite},
      site ∈ strictAcceptGo sl msp r prev ps →
      ∃ p ∈ ps, site = mkSiteP 2 sl r p := by
  intro ps
  induction ps with
  | nil =>
      intro prev site h
      cases prev <;> simp [strictAcceptGo] at h
  | cons p t ih =>
      intro prev site h
      match prev with
      | none =>
          rw [strictAcceptGo] at h
          rcases List.mem_cons.1 h with rfl | h
          · exact ⟨p, List.mem_cons_self _ _, rfl⟩
          · obtain ⟨q, hq, rfl⟩ := ih h
            exact ⟨q, List.mem_cons_of_mem _ hq, rfl⟩
      | some pp =>
          rw [strictAcceptGo] at h
          split at h
          · rcases List.mem_cons.1 h with rfl | h
            · exact ⟨p, List.mem_cons_self _ _, rfl⟩
            · obtain ⟨q, hq, rfl⟩ := ih h
              exact ⟨q, List.mem_cons_of_mem _ hq, rfl⟩
          · obtain ⟨q, hq, rfl⟩ := ih h
            exact ⟨q, List.mem_cons_of_mem _ hq, rfl⟩

theorem strictAcceptGo_lb {sl msp : Nat} {r : List Char} :
    ∀ {ps : List Nat} {pp : Nat} {site : CleavageSite},
      site ∈ strictAcceptGo sl msp r (some pp) ps → pp + msp ≤ site.index := by
  intro ps
  induction ps with
  | nil => intro pp site h; simp [strictAcceptGo] at h
  | cons p t ih =>
      intro pp site h
      rw [strictAcceptGo] at h
      split at h
      · rename_i hacc
        rcases List.mem_cons.1 h with rfl | h
        · simp only [mkSiteP]
          omega
        · have := ih h
          omega
      · exact ih h

theorem strictAcceptGo_chain {sl msp : Nat} {r : List Char} :
    ∀ {ps : List Nat} {prev : Option Nat},
      List.Chain'
        (fun a b => a.position + msp ≤ b.index ∧ a.position + msp ≤ b.position)
        (strictAcceptGo sl msp r prev ps) := by
  intro ps
  induction ps with
  | nil => intro prev; cases prev <;> simp [strictAcceptGo]
  | cons p t ih =>
      intro prev
      have hcons : ∀ rest,
          rest = strictAcceptGo sl msp r (some (sl + p + 2)) t →
          List.Chain'
            (fun a b => a.position + msp ≤ b.index ∧ a.position + msp ≤ b.position)
            (mkSiteP 2 sl r p :: rest) := by
        intro rest hrest
        apply List.chain'_cons'.2
        constructor
        · intro b hb
          have hbmem : b ∈ rest := List.mem_of_mem_head? hb
          rw [hrest] at hbmem
          have hlb := strictAcceptGo_lb hbmem
          obtain ⟨q, _, rfl⟩ := mem_strictAcceptGo hbmem
          simp only [mkSiteP] at hlb ⊢
          omega
        · rw [hrest]; exact ih
      match prev with
      | none =>
          rw [strictAcceptGo]
          exact hcons _ rfl
      | some pp =>
          rw [strictAcceptGo]
          split
          · exact hcons _ rfl
          · exact ih

theorem perm_insertBy {α : Type} (rel : α → α → Bool) (x : α) :
    ∀ l : List α, List.Perm (insertBy rel x l) (x :: l) := by
  intro l
  induction l with
  | nil => simp [insertBy]
  | cons y ys ih =>
      rw [insertBy]
      split
      · exact List.Perm.refl _
      · exact (ih.cons y).trans (List.Perm.swap x y ys)

theorem perm_sortBy {α : Type} (rel : α → α → Bool) :
    ∀ l : List α, List.Perm (sortBy rel l) l := by
  intro l
  induction l with
  | nil => simp [sortBy]
  | cons x xs ih =>
      exact (perm_insertBy rel x (sortBy rel xs)).trans (ih.cons x)

theorem mem_sortBy {α : Type} {rel : α → α → Bool} {l : List α} {x : α} :
    x ∈ sortBy rel l ↔ x ∈ l := (perm_sortBy rel l).mem_iff

theorem mem_sitePairs {α : Type} :
    ∀ {l : List α} {ab : α × α}, ab ∈ sitePairs l → ab.1 ∈ l ∧ ab.2 ∈ l := by
  intro l
  induction l with
  | nil => intro ab h; simp [sitePairs] at h
  | cons x xs ih =>
      intro ab h
      rw [sitePairs, List.mem_append] at h
      rcases h with h | h
      · obtain ⟨y, hy, rfl⟩ := List.mem_map.1 h
        exact ⟨List.mem_cons_self _ _, List.mem_cons_of_mem _ hy⟩
      · have := ih h
        exact ⟨List.mem_cons_of_mem _ this.1, List.mem_cons_of_mem _ this.2⟩

theorem mem_dedupGo :
    ∀ {l kept : List Pep} {x : Pep}, x ∈ dedupGo kept l → x ∈ kept ∨ x ∈ l := by
  intro l
  induction l with
  | nil => intro kept x h; rw [dedupGo] at h; exact Or.inl h
  | cons p t ih =>
      intro kept x h
      rw [dedupGo] at h
      split at h
      · rcases ih h with h' | h'
        · exact Or.inl h'
        · exact Or.inr (List.mem_cons_of_mem _ h')
      · rcases ih h with h' | h'
        · rcases List.mem_append.1 h' with h'' | h''
          · exact Or.inl h''
          · exact Or.inr
              (by rw [List.mem_singleton.1 h'']; exact List.mem_cons_self _ _)
        · exact Or.inr (List.mem_cons_of_mem _ h')

theorem calcOverlap_comm (p q : Pep) : calcOverlap p q = calcOverlap q p := by
  simp only [calcOverlap]
  by_cases h : (p.end_ : ℚ) ≤ q.start ∨ (q.end_ : ℚ) ≤ p.start
  · rw [if_pos h, if_pos (Or.symm h)]
  · rw [if_neg h, if_neg (fun hc => h (Or.symm hc))]
    rw [min_comm ((p.end_ : ℚ)) ((q.end_ : ℚ)),
        max_comm ((p.start : ℚ)) ((q.start : ℚ)),
        min_comm ((p.end_ : ℚ) - (p.start : ℚ)) ((q.end_ : ℚ) - (q.start : ℚ))]

theorem pairwise_dedupGo :
    ∀ {l kept : List Pep},
      List.Pairwise (fun p q => calcOverlap p q ≤ 7 / 10) kept →
      List.Pairwise (fun p q => calcOverlap p q ≤ 7 / 10) (dedupGo kept l) := by
  intro l
  induction l with
  | nil => intro kept hk; rw [dedupGo]; exact hk
  | cons p t ih =>
      intro kept hk
      rw [dedupGo]
      split
      · exact ih hk
      · rename_i hnone
        apply ih
        rw [List.pairwise_append]
        refine ⟨hk, List.pairwise_singleton _ _, ?_⟩
        intro a ha b hb
        have hbp : b = p := List.mem_singleton.1 hb
        subst hbp
        have := (List.any_eq_true.not.1 hnone)
        push_neg at this
        have hle := this a ha
        simp only [ne_eq, decide_eq_true_eq] at hle
        rw [calcOverlap_comm]
        exact not_lt.1 hle

theorem length_seqSlice (s : List Char) (a b : Nat) :
    (seqSlice s a b).length = min b s.length - a := by
  simp [seqSlice]
theorem getRegexPattern_reg {mode : String} (h1 : mode ≠ "ultra-permissive")
    (h2 : mode ≠ "pcsk567") :
    getRegexPattern mode = Pat.strictP ∨ getRegexPattern mode = Pat.permissiveP := by
  by_cases hs : mode = "strict"
  · rw [getRegexPattern, if_pos hs]
    exact Or.inl rfl
  · by_cases hp : mode = "permissive"
    · rw [getRegexPattern, if_neg hs, if_pos hp]
      exact Or.inr rfl
    · rw [getRegexPattern, if_neg hs, if_neg hp, if_neg h1, if_neg h2]
      exact Or.inl rfl

theorem mem_findSites_reg {seq : List Char} {mode : String} {sl msp : Nat}
    (h1 : mode ≠ "ultra-permissive") (h2 : mode ≠ "pcsk567") :
    ∀ site ∈ findSites seq mode sl msp,
      site.position = site.index + 2 ∧ site.index + 2 ≤ seq.length := by
  intro site hmem
  rw [findSites, if_neg h1, if_neg h2] at hmem
  have hr : (seq.drop sl).length = seq.length - sl := List.length_drop sl seq
  by_cases hs : mode = "strict"
  · rw [if_pos hs] at hmem
    obtain ⟨p, hp, rfl⟩ := mem_strictAcceptGo hmem
    have hsc : p + 2 ≤ (seq.drop sl).length := by
      rcases getRegexPattern_reg h1 h2 with hpat | hpat <;>
        rw [hpat] at hp <;> simp only [scanPat] at hp
      · exact (mem_scan2 hp).2.1
      · exact (mem_scan2 hp).2.1
    refine ⟨rfl, ?_⟩
    show sl + p + 2 ≤ seq.length
    omega
  · rw [if_neg hs] at hmem
    obtain ⟨p, hp, rfl⟩ := List.mem_map.1 hmem
    have hsc : p + 2 ≤ (seq.drop sl).length := by
      rcases getRegexPattern_reg h1 h2 with hpat | hpat <;>
        rw [hpat] at hp <;> simp only [scanPat] at hp
      · exact (mem_scan2 hp).2.1
      · exact (mem_scan2 hp).2.1
    refine ⟨rfl, ?_⟩
    show sl + p + 2 ≤ seq.length
    omega

theorem mem_pcskSites {seq : List Char} {sl : Nat} :
    ∀ site ∈ pcskSites seq sl,
      site.position = site.index + 4 ∧ site.index + 4 ≤ seq.length := by
  intro site hmem
  rw [pcskSites] at hmem
  obtain ⟨p, hp, rfl⟩ := List.mem_map.1 hmem
  have hsc := (mem_scan4 hp).2.1
  have hr : (seq.drop sl).length = seq.length - sl := List.length_drop sl seq
  refine ⟨rfl, ?_⟩
  show sl + p + 4 ≤ seq.length
  omega

theorem lookbackBasic_lt {r : List Char} {q cp : Nat}
    (h : lookbackBasic r q = some cp) : cp < q := by
  unfold lookbackBasic at h
  cases hf : (List.range' 1 (min 50 q)).find?
      (fun l => basicAA (getCh r (q - l))) with
  | none => rw [hf] at h; simp at h
  | some l =>
      rw [hf] at h
      simp only [Option.map_some'] at h
      have hcp : q - l = cp := Option.some.inj h
      have hl : l ∈ List.range' 1 (min 50 q) := List.mem_of_find?_eq_some hf
      rw [List.mem_range'_1] at hl
      omega

theorem mem_rfamideSites {sl : Nat} {r : List Char} :
    ∀ site ∈ rfamideSites sl r,
      site.index < site.position ∧ site.position ≤ sl + r.length ∧
      2 ≤ r.length := by
  intro site hmem
  rw [rfamideSites, List.mem_append] at hmem
  have main : ∀ (snd : Char) (qm : Nat × Nat), qm ∈ rfScan snd r 0 →
      (mkRfSite sl r qm).index < (mkRfSite sl r qm).position ∧
      (mkRfSite sl r qm).position ≤ sl + r.length ∧ 2 ≤ r.length := by
    intro snd qm hqm
    have hb := mem_rfScan hqm
    rcases hlb : lookbackBasic r qm.1 with _ | cp
    · simp only [mkRfSite, hlb]
      omega
    · have hcp := lookbackBasic_lt hlb
      simp only [mkRfSite, hlb]
      omega
  rcases hmem with hmem | hmem <;>
    obtain ⟨qm, hqm, rfl⟩ := List.mem_map.1 hmem
  · exact main 'F' qm hqm
  · exact main 'Y' qm hqm

theorem mem_ultraSites {seq : List Char} {sl : Nat} :
    ∀ site ∈ ultraSites seq sl,
      site.index < site.position ∧ site.position ≤ seq.length := by
  intro site hmem
  rw [ultraSites] at hmem
  have hmem' := mem_sortBy.1 hmem
  have hr : (seq.drop sl).length = seq.length - sl := List.length_drop sl seq
  rcases List.mem_append.1 hmem' with hm | hm
  · rw [singleBasicSites] at hm
    obtain ⟨i, hi, hsome⟩ := List.mem_filterMap.1 hm
    rw [List.mem_range] at hi
    split at hsome
    · obtain rfl := Option.some.inj hsome
      refine ⟨?_, ?_⟩
      · show sl + i < sl + i + 1
        omega
      · show sl + i + 1 ≤ seq.length
        omega
    · exact absurd hsome (by simp)
  · have := mem_rfamideSites site hm
    omega
theorem walkPeps_props {seq : List Char} {b : Bool} {msp : Nat} :
    ∀ {sites : List CleavageSite}, (∀ s ∈ sites, s.index ≤ seq.length) →
      ∀ {prev : Nat} {pm : List Char} {p : Pep},
        p ∈ walkPeps seq b msp sites prev pm →
        1 ≤ p.start ∧ p.start ≤ p.end_ ∧ p.end_ ≤ seq.length ∧
        p.length_ + p.start = p.end_ + 1 ∧ 0 < p.length_ := by
  intro sites
  induction sites with
  | nil =>
      intro _ prev pm p hp
      rw [walkPeps, trailingPep] at hp
      have htr : ∀ thr : Nat,
          p ∈ (if prev < seq.length ∧ thr < (seq.drop prev).length then
            [mkWalkPep (seq.drop prev) prev seq.length pm ['E', 'N', 'D']]
            else []) →
          1 ≤ p.start ∧ p.start ≤ p.end_ ∧ p.end_ ≤ seq.length ∧
          p.length_ + p.start = p.end_ + 1 ∧ 0 < p.length_ := by
        intro thr hmem
        split at hmem
        · rename_i hcond
          obtain rfl := List.mem_singleton.1 hmem
          have hlen : (seq.drop prev).length = seq.length - prev :=
            List.length_drop _ _
          refine ⟨?_, ?_, ?_, ?_, ?_⟩
          · show 1 ≤ prev + 1
            omega
          · show prev + 1 ≤ seq.length
            omega
          · show seq.length ≤ seq.length
            omega
          · show (seq.drop prev).length + (prev + 1) = seq.length + 1
            omega
          · show 0 < (seq.drop prev).length
            omega
        · simp at hmem
      exact htr _ hp
  | cons site rest ih =>
      intro hs prev pm p hp
      have hs' : ∀ s ∈ rest, s.index ≤ seq.length :=
        fun s h => hs s (List.mem_cons_of_mem _ h)
      have hsite : site.index ≤ seq.length := hs site (List.mem_cons_self _ _)
      have hemit : ∀ thr : Nat,
          p ∈ (if thr < (seqSlice seq prev site.index).length then
            [mkWalkPep (seqSlice seq prev site.index) prev site.index pm
              site.motif] else []) →
          1 ≤ p.start ∧ p.start ≤ p.end_ ∧ p.end_ ≤ seq.length ∧
          p.length_ + p.start = p.end_ + 1 ∧ 0 < p.length_ := by
        intro thr hmem
        split at hmem
        · rename_i hguard
          obtain rfl := List.mem_singleton.1 hmem
          have hlen := length_seqSlice seq prev site.index
          refine ⟨?_, ?_, ?_, ?_, ?_⟩
          · show 1 ≤ prev + 1
            omega
          · show prev + 1 ≤ site.index
            omega
          · show site.index ≤ seq.length
            omega
          · show (seqSlice seq prev site.index).length + (prev + 1) =
              site.index + 1
            omega
          · show 0 < (seqSlice seq prev site.index).length
            omega
        · simp at hmem
      rw [walkPeps] at hp
      split at hp
      · split at hp
        · rcases List.mem_append.1 hp with hp | hp
          · exact hemit _ hp
          · exact ih hs' hp
        · exact ih hs' hp
      · rcases List.mem_append.1 hp with hp | hp
        · exact hemit _ hp
        · exact ih hs' hp

theorem walkPeps_slice {seq : List Char} {b : Bool} {msp : Nat} :
    ∀ {sites : List CleavageSite} {prev : Nat} {pm : List Char} {p : Pep},
      p ∈ walkPeps seq b msp sites prev pm →
      p.sequence = seqSlice seq (p.start - 1) p.end_ := by
  intro sites
  induction sites with
  | nil =>
      intro prev pm p hp
      rw [walkPeps, trailingPep] at hp
      have htr : ∀ thr : Nat,
          p ∈ (if prev < seq.length ∧ thr < (seq.drop prev).length then
            [mkWalkPep (seq.drop prev) prev seq.length pm ['E', 'N', 'D']]
            else []) →
          p.sequence = seqSlice seq (p.start - 1) p.end_ := by
        intro thr hmem
        split at hmem
        · obtain rfl := List.mem_singleton.1 hmem
          show seq.drop prev = seqSlice seq (prev + 1 - 1) seq.length
          rw [Nat.add_sub_cancel, seqSlice, List.take_length]
        · simp at hmem
      exact htr _ hp
  | cons site rest ih =>
      intro prev pm p hp
      have hemit : ∀ thr : Nat,
          p ∈ (if thr < (seqSlice seq prev site.index).length then
            [mkWalkPep (seqSlice seq prev site.index) prev site.index pm
              site.motif] else []) →
          p.sequence = seqSlice seq (p.start - 1) p.end_ := by
        intro thr hmem
        split at hmem
        · obtain rfl := List.mem_singleton.1 hmem
          show seqSlice seq prev site.index =
            seqSlice seq (prev + 1 - 1) site.index
          rw [Nat.add_sub_cancel]
        · simp at hmem
      rw [walkPeps] at hp
      split at hp
      · split at hp
        · rcases List.mem_append.1 hp with hp | hp
          · exact hemit _ hp
          · exact ih hp
        · exact ih hp
      · rcases List.mem_append.1 hp with hp | hp
        · exact hemit _ hp
        · exact ih hp

theorem mkUltraCand_some {seq : List Char} {a b : CleavageSite} {p : Pep}
    (h : mkUltraCand seq a b = some p) :
    ∃ ep : Nat, (ep = b.position ∨ ep = b.index) ∧
      p.start = a.position + 1 ∧ p.end_ = ep ∧
      a.position + 3 ≤ ep ∧ p.length_ + a.position = ep ∧
      3 ≤ p.length_ ∧ p.length_ ≤ 50 ∧
      p.sequence = seqSlice seq a.position ep := by
  simp only [mkUltraCand] at h
  set E := (if (containsSub ['R', 'F'] b.motif ||
      containsSub ['R', 'Y'] b.motif) = true then b.position else b.index)
    with hE
  by_cases h1 : (decide ((E : Int) - (a.position : Int) > 100) ||
      decide ((E : Int) - (a.position : Int) > 50)) = true
  · rw [if_pos h1] at h
    exact absurd h (by simp)
  · rw [if_neg h1] at h
    by_cases h2 : (E : Int) - (a.position : Int) < 3
    · rw [if_pos h2] at h
      exact absurd h (by simp)
    · rw [if_neg h2] at h
      by_cases h3 : calcConfidence (seqSlice seq a.position E) a b
          ((E : Int) - (a.position : Int)) < 30
      · rw [if_pos h3] at h
        exact absurd h (by simp)
      · rw [if_neg h3] at h
        obtain rfl := Option.some.inj h
        simp only [Bool.or_eq_true, decide_eq_true_eq, not_or] at h1
        refine ⟨E, ?_, rfl, rfl, ?_, ?_, ?_, ?_, rfl⟩
        · rw [hE]
          split
          · exact Or.inl rfl
          · exact Or.inr rfl
        · omega
        · show ((E : Int) - (a.position : Int)).toNat + a.position = E
          omega
        · show 3 ≤ ((E : Int) - (a.position : Int)).toNat
          omega
        · show ((E : Int) - (a.position : Int)).toNat ≤ 50
          omega

theorem mem_extractUltra {seq : List Char} {sites : List CleavageSite}
    {sl : Nat} {p : Pep} (h : p ∈ extractUltra seq sites sl) :
    ∃ ab ∈ sitePairs (sortBy siteIdxLe sites),
      mkUltraCand seq ab.1 ab.2 = some p := by
  simp only [extractUltra] at h
  split at h
  · simp at h
  · have h2 := mem_sortBy.1 ((List.take_sublist _ _).subset h)
    rw [removeOverlapping] at h2
    split at h2
    · obtain ⟨ab, hab, hf⟩ := List.mem_filterMap.1 h2
      exact ⟨ab, hab, hf⟩
    · rcases mem_dedupGo h2 with h3 | h3
      · simp at h3
      · obtain ⟨ab, hab, hf⟩ := List.mem_filterMap.1 (mem_sortBy.1 h3)
        exact ⟨ab, hab, hf⟩

theorem mem_extractPcsk {seq : List Char} {sites : List CleavageSite}
    {sl : Nat} {p : Pep} (h : p ∈ extractPcsk seq sites sl) :
    ∃ site ∈ sites, p ∈ pcskFragments seq sl site := by
  rw [extractPcsk] at h
  split at h
  · simp at h
  · exact List.mem_flatMap.1 h

theorem pcskFragments_props {seq : List Char} {sl : Nat} {site : CleavageSite}
    {p : Pep} (hsite : site.index + 4 ≤ seq.length)
    (hpos : site.position = site.index + 4)
    (h : p ∈ pcskFragments seq sl site) :
    1 ≤ p.start ∧ p.start ≤ p.end_ ∧ p.end_ ≤ seq.length ∧
    p.length_ + p.start = p.end_ + 1 ∧ 0 < p.length_ := by
  rw [pcskFragments] at h
  have hdl : (seq.drop site.position).length = seq.length - site.position :=
    List.length_drop _ _
  have hsl := length_seqSlice seq sl site.index
  rcases List.mem_append.1 h with hm | hm <;> split at hm
  · rename_i hguard
    obtain rfl := List.mem_singleton.1 hm
    refine ⟨?_, ?_, ?_, ?_, ?_⟩
    · show 1 ≤ site.position + 1
      omega
    · show site.position + 1 ≤ seq.length
      omega
    · show seq.length ≤ seq.length
      omega
    · show (seq.drop site.position).length + (site.position + 1) =
        seq.length + 1
      omega
    · show 0 < (seq.drop site.position).length
      omega
  · simp at hm
  · rename_i hguard
    obtain rfl := List.mem_singleton.1 hm
    refine ⟨?_, ?_, ?_, ?_, ?_⟩
    · show 1 ≤ sl + 1
      omega
    · show sl + 1 ≤ site.index
      omega
    · show site.index ≤ seq.length
      omega
    · show (seqSlice seq sl site.index).length + (sl + 1) = site.index + 1
      omega
    · show 0 < (seqSlice seq sl site.index).length
      omega
  · simp at hm

theorem pcskFragments_slice {seq : List Char} {sl : Nat} {site : CleavageSite}
    {p : Pep} (h : p ∈ pcskFragments seq sl site) :
    p.sequence = seqSlice seq (p.start - 1) p.end_ := by
  rw [pcskFragments] at h
  rcases List.mem_append.1 h with hm | hm <;> split at hm
  · obtain rfl := List.mem_singleton.1 hm
    show seq.drop site.position =
      seqSlice seq (site.position + 1 - 1) seq.length
    rw [Nat.add_sub_cancel, seqSlice, List.take_length]
  · simp at hm
  · obtain rfl := List.mem_singleton.1 hm
    show seqSlice seq sl site.index = seqSlice seq (sl + 1 - 1) site.index
    rw [Nat.add_sub_cancel]
  · simp at hm
theorem findSites_ultra (seq : List Char) (sl msp : Nat) :
    findSites seq "ultra-permissive" sl msp = ultraSites seq sl := by
  rw [findSites, if_pos rfl]

theorem findSites_pcsk (seq : List Char) (sl msp : Nat) :
    findSites seq "pcsk567" sl msp = pcskSites seq sl := by
  rw [findSites, if_neg (by decide), if_pos rfl]

theorem findSites_strict (seq : List Char) (sl msp : Nat) :
    findSites seq "strict" sl msp =
      strictAcceptGo sl msp (seq.drop sl) none
        (scan2 strictOk (seq.drop sl) 0) := by
  rw [findSites, if_neg (by decide), if_neg (by decide), if_pos rfl]
  have hg : getRegexPattern "strict" = Pat.strictP := by
    rw [getRegexPattern, if_pos rfl]
  rw [hg]
  rfl

theorem findSites_perm (seq : List Char) (sl msp : Nat) :
    findSites seq "permissive" sl msp =
      (scan2 permOk (seq.drop sl) 0).map (mkSiteP 2 sl (seq.drop sl)) := by
  rw [findSites, if_neg (by decide), if_neg (by decide), if_neg (by decide)]
  have hg : getRegexPattern "permissive" = Pat.permissiveP := by
    rw [getRegexPattern, if_neg (by decide), if_pos rfl]
  rw [hg]
  rfl

theorem sublist_strictAcceptGo {sl msp : Nat} {r : List Char} :
    ∀ {ps : List Nat} {prev : Option Nat},
      (strictAcceptGo sl msp r prev ps).Sublist (ps.map (mkSiteP 2 sl r)) := by
  intro ps
  induction ps with
  | nil => intro prev; cases prev <;> simp [strictAcceptGo]
  | cons p t ih =>
      intro prev
      match prev with
      | none =>
          rw [strictAcceptGo, List.map_cons]
          exact (@ih (some (sl + p + 2))).cons₂ _
      | some pp =>
          rw [strictAcceptGo, List.map_cons]
          split
          · exact (@ih (some (sl + p + 2))).cons₂ _
          · exact (@ih (some pp)).cons _

theorem pairwise_of_short {α : Type} {R : α → α → Prop} {l : List α}
    (h : l.length ≤ 1) : List.Pairwise R l := by
  match l with
  | [] => exact List.Pairwise.nil
  | [a] => exact List.pairwise_singleton R a
  | a :: b :: t => simp at h
/-- Claim C4: every cleavage site found by `find_sites` in strict mode
is also found (same `position`, `motif`, `index`) by `find_sites` in
permissive mode on the same sequence, `signal_length` and
`min_spacing`. -/
theorem c4_permissive_superset_of_strict (seq : List Char) (sl msp : Nat)
    (site : CleavageSite) (h : site ∈ findSites seq "strict" sl msp) :
    site ∈ findSites seq "permissive" sl msp := by
  rw [findSites_strict] at h
  obtain ⟨p, hp, rfl⟩ := mem_strictAcceptGo h
  have hm := mem_scan2 hp
  have hso := hm.2.2
  simp only [strictOk, Bool.and_eq_true] at hso
  obtain ⟨⟨hdib, hlb⟩, _⟩ := hso
  have hlb' : p = 0 ∨ basicAA (getCh (seq.drop sl) (p - 1)) = false := by
    simpa using hlb
  have hmem2 := perm_reach hdib hm.2.1 hlb' 0 (Nat.zero_le p)
  rw [findSites_perm]
  exact List.mem_map.2 ⟨p, hmem2, rfl⟩

/-- Claim C5: in strict mode, consecutive accepted sites are spaced —
each next site's match index (and hence its cleavage position) is at
least `min_spacing` past the previous accepted site's cleavage point —
and the strict result is a sublist of the strict-pattern match list
(failing matches are dropped entirely, not merely flagged). -/
theorem c5_strict_spacing (seq : List Char) (sl msp : Nat) :
    List.Chain'
      (fun a b => a.position + msp ≤ b.index ∧ a.position + msp ≤ b.position)
      (findSites seq "strict" sl msp) ∧
    (findSites seq "strict" sl msp).Sublist
      ((scan2 strictOk (seq.drop sl) 0).map (mkSiteP 2 sl (seq.drop sl))) := by
  rw [findSites_strict]
  exact ⟨strictAcceptGo_chain, sublist_strictAcceptGo⟩

/-- Claim C6 (amended): for a mode string outside the supported closed
set, `find_sites` does not return an empty list with a diagnostic; it
silently falls back to the strict dibasic pattern and accepts every
match without the spacing filter (the permissive-style acceptance
branch). -/
theorem c6_unknown_mode_fallback_amended (seq : List Char) (sl msp : Nat)
    (mode : String) (h1 : mode ≠ "strict") (h2 : mode ≠ "permissive")
    (h3 : mode ≠ "ultra-permissive") (h4 : mode ≠ "pcsk567") :
    findSites seq mode sl msp =
      (scan2 strictOk (seq.drop sl) 0).map (mkSiteP 2 sl (seq.drop sl)) := by
  rw [findSites, if_neg h3, if_neg h4, if_neg h1]
  have hg : getRegexPattern mode = Pat.strictP := by
    rw [getRegexPattern, if_neg h1, if_neg h2, if_neg h3, if_neg h4]
  rw [hg]
  rfl

/-- Claim C7: the bioactivity heuristic is clamped to [0, 100] for
every input and every combination of the optional context arguments,
and the empty peptide scores 0. -/
theorem c7_heuristic_clamped (pep : List Char) (cm fps : Option (List Char))
    (pe : Option Nat) :
    0 ≤ calculateHeuristic pep cm fps pe ∧
    calculateHeuristic pep cm fps pe ≤ 100 ∧
    calculateHeuristic [] cm fps pe = 0 := by
  refine ⟨?_, ?_, by rw [calculateHeuristic, if_pos rfl]⟩
  · by_cases hp : pep = []
    · subst hp
      rw [calculateHeuristic, if_pos rfl]
    · rw [calculateHeuristic, if_neg hp]
      exact le_max_right _ _
  · by_cases hp : pep = []
    · subst hp
      rw [calculateHeuristic, if_pos rfl]
      norm_num
    · rw [calculateHeuristic, if_neg hp]
      exact max_le (min_le_right _ _) (by norm_num)

/-- Claim C9: every site produced by `find_sites`, in every mode
(including fallback modes), satisfies `position > index`; in
strict/permissive mode `position − index = 2` (dibasic motif length),
in `pcsk567` mode `position − index = 4` (four-residue motif). -/
theorem c9_site_position_motif_length (seq : List Char) (mode : String)
    (sl msp : Nat) (site : CleavageSite)
    (h : site ∈ findSites seq mode sl msp) :
    site.index < site.position ∧
    ((mode = "strict" ∨ mode = "permissive") →
      site.position = site.index + 2) ∧
    (mode = "pcsk567" → site.position = site.index + 4) := by
  by_cases hu : mode = "ultra-permissive"
  · subst hu
    rw [findSites_ultra] at h
    have := mem_ultraSites site h
    refine ⟨this.1, ?_, ?_⟩
    · intro hc
      rcases hc with hc | hc <;> exact absurd hc (by decide)
    · intro hc
      exact absurd hc (by decide)
  · by_cases hk : mode = "pcsk567"
    · subst hk
      rw [findSites_pcsk] at h
      have := mem_pcskSites site h
      refine ⟨by omega, ?_, fun _ => this.1⟩
      intro hc
      rcases hc with hc | hc <;> exact absurd hc (by decide)
    · have := mem_findSites_reg hu hk site h
      exact ⟨by omega, fun _ => this.1, fun hc => absurd hc hk⟩

/-- Claim C1 (amended): for every sequence, mode and parameters, every
candidate returned by the detector-extractor pipeline has 1-based
inclusive coordinates: `1 ≤ start ≤ end ≤ |sequence|` and
`length = end − start + 1 > 0` (the spec's `length = end − start` is
off by one against the stored fields). -/
theorem c1_candidate_coords_amended (seq : List Char) (mode : String)
    (sl msp mst : Nat) (p : Pep)
    (hp : p ∈ extract seq (findSites seq mode sl msp) sl msp mst mode) :
    1 ≤ p.start ∧ p.start ≤ p.end_ ∧ p.end_ ≤ seq.length ∧
    p.length_ + p.start = p.end_ + 1 ∧ 0 < p.length_ := by
  rw [extract] at hp
  by_cases hu : mode = "ultra-permissive"
  · rw [if_pos hu] at hp
    obtain ⟨ab, hab, hf⟩ := mem_extractUltra hp
    obtain ⟨ep, hep, hstart, hend, hge, hlen, hl3, hl50, _⟩ :=
      mkUltraCand_some hf
    have hb2 : ab.2 ∈ ultraSites seq sl := by
      have hmem := mem_sortBy.1 (mem_sitePairs hab).2
      rw [hu, findSites_ultra] at hmem
      exact hmem
    have hbnd := mem_ultraSites ab.2 hb2
    have hep_le : ep ≤ seq.length := by rcases hep with rfl | rfl <;> omega
    omega
  · rw [if_neg hu] at hp
    by_cases hk : mode = "pcsk567"
    · rw [if_pos hk] at hp
      rw [hk, findSites_pcsk] at hp
      obtain ⟨site, hsmem, hfrag⟩ := mem_extractPcsk hp
      have hb := mem_pcskSites site hsmem
      exact pcskFragments_props hb.2 hb.1 hfrag
    · rw [if_neg hk] at hp
      split at hp
      · simp at hp
      · have hs : ∀ s ∈ findSites seq mode sl msp, s.index ≤ seq.length := by
          intro s hsm
          have := mem_findSites_reg hu hk s hsm
          omega
        exact walkPeps_props hs hp

/-- Claim C10: in every extraction mode and for every site list, each
returned candidate's `sequence` field equals the parent-sequence slice
from 0-based index `start − 1` up to (but excluding) `end`; the three
fields are mutually consistent. -/
theorem c10_sequence_slice_consistency (seq : List Char)
    (sites : List CleavageSite) (sl msp mst : Nat) (mode : String) (p : Pep)
    (hp : p ∈ extract seq sites sl msp mst mode) :
    p.sequence = seqSlice seq (p.start - 1) p.end_ := by
  rw [extract] at hp
  split at hp
  · obtain ⟨ab, hab, hf⟩ := mem_extractUltra hp
    obtain ⟨ep, _, hstart, hend, _, _, _, _, hseq⟩ := mkUltraCand_some hf
    rw [hseq, hstart, hend, Nat.add_sub_cancel]
  · split at hp
    · obtain ⟨site, _, hfrag⟩ := mem_extractPcsk hp
      exact pcskFragments_slice hfrag
    · split at hp
      · simp at hp
      · exact walkPeps_slice hp

/-- Claim C2 (amended): every candidate returned by ultra-permissive
extraction has length between 3 and 50 inclusive (the lower bound is
3, not the spec's 4), and arises from an ordered pair of the
index-sorted site array (an earlier site paired with a later one). -/
theorem c2_ultra_length_band_amended (seq : List Char)
    (sites : List CleavageSite) (sl : Nat) (p : Pep)
    (hp : p ∈ extractUltra seq sites sl) :
    3 ≤ p.length_ ∧ p.length_ ≤ 50 ∧
    ∃ ab ∈ sitePairs (sortBy siteIdxLe sites),
      mkUltraCand seq ab.1 ab.2 = some p := by
  obtain ⟨ab, hab, hf⟩ := mem_extractUltra hp
  obtain ⟨ep, _, _, _, _, _, h3, h50, _⟩ := mkUltraCand_some hf
  exact ⟨h3, h50, ab, hab, hf⟩

/-- Claim C3 (amended): after ultra-permissive deduplication, any two
retained candidates have code-computed overlap at most 0.7, where the
code computes the overlap on the stored 1-based inclusive coordinates
as `(min end − max start) / min(end − start)` — both numerator and
denominator undercount the residue counts by one, so the true
shared-residue fraction of a retained pair may exceed 0.70. -/
theorem c3_overlap_dedup_amended (seq : List Char)
    (sites : List CleavageSite) (sl : Nat) :
    List.Pairwise (fun p q => calcOverlap p q ≤ 7 / 10)
      (extractUltra seq sites sl) := by
  have hsymm : ∀ {x y : Pep}, calcOverlap x y ≤ 7 / 10 →
      calcOverlap y x ≤ 7 / 10 := by
    intro x y hxy
    rw [calcOverlap_comm]
    exact hxy
  simp only [extractUltra]
  split
  · exact List.Pairwise.nil
  · apply List.Pairwise.sublist (List.take_sublist _ _)
    have hded : List.Pairwise (fun p q => calcOverlap p q ≤ 7 / 10)
        (removeOverlapping ((sitePairs (sortBy siteIdxLe sites)).filterMap
          (fun ab => mkUltraCand seq ab.1 ab.2))) := by
      simp only [removeOverlapping]
      split
      · apply pairwise_of_short
        assumption
      · exact pairwise_dedupGo List.Pairwise.nil
    exact hded.perm (perm_sortBy rankGe _).symm hsymm
theorem amidFromAfter_nil : amidFromAfter [] = none := by decide

theorem amidFromAfter_isSome_of_basic (c : Char) (t : List Char)
    (hc : basicAA c = true) : (amidFromAfter (c :: t)).isSome = true := by
  simp only [basicAA, Bool.or_eq_true, beq_iff_eq] at hc
  rcases hc with rfl | rfl
  · have h6 : (['K'] : List Char).isPrefixOf ('K' :: t) = true := by
      simp [List.isPrefixOf]
    simp only [amidFromAfter]
    split_ifs <;> rfl
  · have h5 : (['R'] : List Char).isPrefixOf ('R' :: t) = true := by
      simp [List.isPrefixOf]
    simp only [amidFromAfter]
    split_ifs <;> rfl

theorem amidFromAfter_none_of_not_basic (c : Char) (t : List Char)
    (hc : basicAA c = false) : amidFromAfter (c :: t) = none := by
  simp only [basicAA, Bool.or_eq_false_iff, beq_eq_false_iff_ne, ne_eq] at hc
  obtain ⟨hcK, hcR⟩ := hc
  simp [amidFromAfter, List.isPrefixOf, Ne.symm hcK, Ne.symm hcR]

theorem seqSlice_cons_of_lt {f : List Char} {e : Nat} (he : e < f.length) :
    seqSlice f e (e + 3) = f.getD e ' ' :: (f.drop (e + 1)).take 2 := by
  have h3 : e + 3 - e = 3 := by omega
  rw [seqSlice, List.drop_take, h3, List.drop_eq_getElem_cons he,
    List.getD_eq_getElem f ' ' he]
  show List.take (2 + 1) (f[e] :: f.drop (e + 1)) = _
  rw [List.take_succ_cons]

theorem detectCAmid_some_iff (pep f : List Char) (e : Nat) :
    (detectCAmid pep (some f) (some e)).isSome = true ↔
      f ≠ [] ∧ pep ≠ [] ∧ endsWithL ['G'] pep = true ∧ e < f.length ∧
      basicAA (f.getD e ' ') = true := by
  simp only [detectCAmid]
  by_cases hf : f = []
  · rw [if_pos hf]
    simp [hf]
  · rw [if_neg hf]
    by_cases hpg : pep = [] ∨ ¬ endsWithL ['G'] pep = true
    · rw [if_pos hpg]
      apply iff_of_false (by simp)
      rintro ⟨_, hne, hends, _⟩
      rcases hpg with h | h
      · exact hne h
      · exact h hends
    · rw [if_neg hpg]
      push_neg at hpg
      by_cases hlen : f.length ≤ e
      · rw [if_pos hlen]
        apply iff_of_false (by simp)
        rintro ⟨_, _, _, hlt, _⟩
        omega
      · rw [if_neg hlen]
        have he : e < f.length := by omega
        rw [seqSlice_cons_of_lt he]
        constructor
        · intro h
          rcases hb : basicAA (f.getD e ' ') with _ | _
          · rw [amidFromAfter_none_of_not_basic _ _ hb] at h
            simp at h
          · exact ⟨hf, hpg.1, hpg.2, he, rfl⟩
        · rintro ⟨_, _, _, _, hb⟩
          rw [amidFromAfter_isSome_of_basic _ _ hb]

theorem detectCAmid_no_context (pep : List Char) (pe : Option Nat) :
    detectCAmid pep none pe = none := rfl

theorem detectCAmid_no_end (pep : List Char) (fps : Option (List Char)) :
    detectCAmid pep fps none = none := by
  cases fps <;> rfl

theorem detectCAmid_some_shape {pep f : List Char} {e : Nat} {ptm : Ptm}
    (h : detectCAmid pep (some f) (some e) = some ptm) :
    ptm.type_ = "C-terminal amidation" ∧ ptm.removesG = true ∧
    endsWithL ['G'] pep = true := by
  simp only [detectCAmid] at h
  split at h
  · exact absurd h (by simp)
  · split at h
    · exact absurd h (by simp)
    · split at h
      · exact absurd h (by simp)
      · rename_i hpg hlen
        push_neg at hpg
        have hends := hpg.2
        simp only [amidFromAfter] at h
        split_ifs at h <;>
          (obtain rfl := Option.some.inj h; exact ⟨rfl, rfl, hends⟩)

theorem data_foldl_append :
    ∀ (xs : List String) (acc : String),
      (xs.foldl (· ++ ·) acc).data = acc.data ++ (xs.map String.data).flatten := by
  intro xs
  induction xs with
  | nil =>
      intro acc
      simp
  | cons x rest ih =>
      intro acc
      rw [List.foldl_cons, ih, List.map_cons, List.flatten_cons,
        String.data_append, List.append_assoc]

theorem flatten_map_charToString (l : List Char) :
    (l.map (fun c => (Char.toString c).data)).flatten = l := by
  induction l with
  | nil => rfl
  | cons c rest ih =>
      rw [List.map_cons, List.flatten_cons, ih]
      rfl

theorem join_map_toString (l : List Char) (s : String) :
    String.join (l.map Char.toString ++ [s]) = String.mk (l ++ s.data) := by
  apply String.ext
  show ((l.map Char.toString ++ [s]).foldl (· ++ ·) "").data = l ++ s.data
  rw [data_foldl_append, List.map_append, List.flatten_append, List.map_map]
  show [] ++ ((l.map fun c => (Char.toString c).data).flatten ++
    ([s].map String.data).flatten) = l ++ s.data
  rw [List.nil_append, flatten_map_charToString]
  simp

theorem generateModified_amid (pep : List Char) (ptm : Ptm)
    (htype : ptm.type_ = "C-terminal amidation") (hrg : ptm.removesG = true)
    (hends : endsWithL ['G'] pep = true) :
    generateModified pep [ptm] = String.mk (pep.dropLast ++ ("-NH₂").data) := by
  obtain ⟨l, rfl⟩ : ∃ l, pep = l ++ ['G'] := by
    have hsuff : (['G'] : List Char) <:+ pep := by
      rw [endsWithL] at hends
      exact List.isSuffixOf_iff_suffix.1 hends
    obtain ⟨t, ht⟩ := hsuff
    exact ⟨t, ht.symm⟩
  have hG : List.map (fun c => Char.toString c) ['G'] = ["G"] := rfl
  simp only [generateModified]
  rw [if_neg (show ¬([ptm] = []) by simp)]
  rw [if_pos ?hcond]
  case hcond =>
    refine ⟨by simp [htype, hrg], by simp, ?_⟩
    rw [List.map_append, hG]
    exact List.getLast?_concat _
  rw [List.map_append, hG, List.dropLast_concat, List.dropLast_concat,
    List.foldl_cons, List.foldl_nil]
  simp only [applyPtm]
  rw [if_pos htype]
  exact join_map_toString l "-NH₂"
/-- Claim C8: the C-terminal amidation annotation fires exactly when
the candidate ends in glycine and the 1–2 residues immediately
following it in the full sequence are drawn from {R, K} (the anchored
patterns `^RR|^RK|^KR|^KK|^R|^K` fire exactly when the first following
residue is R or K); when the full-sequence context or the end position
is absent the check is skipped and returns no annotation; and when it
fires, the modified rendering drops the terminal G and appends the
amidation marker `-NH₂`. -/
theorem c8_amidation_rule (pep f : List Char) (e : Nat) :
    ((detectCAmid pep (some f) (some e)).isSome = true ↔
      f ≠ [] ∧ pep ≠ [] ∧ endsWithL ['G'] pep = true ∧ e < f.length ∧
      basicAA (f.getD e ' ') = true) ∧
    (∀ pe : Option Nat, detectCAmid pep none pe = none) ∧
    detectCAmid pep (some f) none = none ∧
    (∀ ptm : Ptm, detectCAmid pep (some f) (some e) = some ptm →
      generateModified pep [ptm] =
        String.mk (pep.dropLast ++ ("-NH₂").data)) := by
  refine ⟨detectCAmid_some_iff pep f e,
    fun pe => detectCAmid_no_context pep pe,
    detectCAmid_no_end pep (some f), ?_⟩
  intro ptm hdet
  obtain ⟨ht, hrg, hends⟩ := detectCAmid_some_shape hdet
  exact generateModified_amid pep ptm ht hrg hends

/-- Witness for C8 at `...ABCG` + `RR`: amidation fires and the
rendering of `ABCG` becomes `ABC-NH₂`. -/
theorem c8_amidation_rule_witness :
    generateModified ("ABCG".toList) [amidPtm ['G', 'R', 'R']] =
      String.mk (("ABCG".toList).dropLast ++ ("-NH₂").data) :=
  (c8_amidation_rule ("ABCG".toList) ("ABCGRR".toList) 4).2.2.2
    (amidPtm ['G', 'R', 'R']) (by decide)

/-- Counterexample to C1 as stated: on `AAKRAA` in permissive mode both
returned candidates have `length = 2` but `end − start = 1` (the fields
are 1-based inclusive, so `length = end − start + 1`). -/
theorem c1_length_off_by_one_cex :
    ((extract ("AAKRAA".toList)
        (findSites ("AAKRAA".toList) "permissive" 0 1) 0 1 1
        "permissive").map (fun p => (p.length_, p.end_ - p.start))) =
      [(2, 1), (2, 1)] := by decide

/-- Witness for the amended C1 on the permissive `AAKRAA` pipeline. -/
theorem c1_candidate_coords_amended_witness :
    0 < ((extract ("AAKRAA".toList)
        (findSites ("AAKRAA".toList) "permissive" 0 1) 0 1 1
        "permissive").getD 0 dPep).length_ :=
  (c1_candidate_coords_amended ("AAKRAA".toList) "permissive" 0 1 1
    ((extract ("AAKRAA".toList)
        (findSites ("AAKRAA".toList) "permissive" 0 1) 0 1 1
        "permissive").getD 0 dPep) (by decide)).2.2.2.2

/-- Counterexample to C2 as stated: the ultra-permissive pipeline on
`KAAGKAAAAA` returns exactly one candidate and its length is 3, below
the claimed lower bound of 4. -/
theorem c2_ultra_min_length_cex :
    ((extract ("KAAGKAAAAA".toList)
        (findSites ("KAAGKAAAAA".toList) "ultra-permissive" 0 5) 0 5 2
        "ultra-permissive").map (fun p => p.length_)) = [3] := by decide

/-- Witness for the amended C2 on the `KAAGKAAAAA` pipeline. -/
theorem c2_ultra_length_band_amended_witness :
    3 ≤ ((extractUltra ("KAAGKAAAAA".toList)
        (findSites ("KAAGKAAAAA".toList) "ultra-permissive" 0 5) 0).getD 0
          dPep).length_ :=
  (c2_ultra_length_band_amended ("KAAGKAAAAA".toList)
    (findSites ("KAAGKAAAAA".toList) "ultra-permissive" 0 5) 0
    ((extractUltra ("KAAGKAAAAA".toList)
        (findSites ("KAAGKAAAAA".toList) "ultra-permissive" 0 5) 0).getD 0
          dPep) (by decide)).1

/-- Counterexample to C3 as stated: on `AAAAAAAAAKAKAAAAAKAK` the
ultra-permissive pipeline retains two candidates (1-based spans
[11,17] and [13,19]) whose shared residue span is 5 with shorter
length 7, an overlap fraction of 5/7 > 0.70. -/
theorem c3_overlap_fraction_cex :
    (extract ("AAAAAAAAAKAKAAAAAKAK".toList)
        (findSites ("AAAAAAAAAKAKAAAAAKAK".toList) "ultra-permissive" 0 5)
        0 5 2 "ultra-permissive").length = 2 ∧
    (7 : ℚ) / 10 < specOverlapFrac
      ((extract ("AAAAAAAAAKAKAAAAAKAK".toList)
          (findSites ("AAAAAAAAAKAKAAAAAKAK".toList) "ultra-permissive" 0 5)
          0 5 2 "ultra-permissive").getD 0 dPep)
      ((extract ("AAAAAAAAAKAKAAAAAKAK".toList)
          (findSites ("AAAAAAAAAKAKAAAAAKAK".toList) "ultra-permissive" 0 5)
          0 5 2 "ultra-permissive").getD 1 dPep) := by decide

/-- Witness for C4: the strict site of `AAKRA` is found by the
permissive scan as well. -/
theorem c4_permissive_superset_of_strict_witness :
    (⟨4, ['K', 'R'], 2⟩ : CleavageSite) ∈
      findSites ("AAKRA".toList) "permissive" 0 1 :=
  c4_permissive_superset_of_strict ("AAKRA".toList) 0 1
    ⟨4, ['K', 'R'], 2⟩ (by decide)

/-- Counterexample to C6 as stated: an unsupported mode string does not
yield an empty site list — `find_sites` on `AAKRA` with mode `bogus`
returns one site. -/
theorem c6_unknown_mode_cex :
    (findSites ("AAKRA".toList) "bogus" 0 1).length = 1 := by decide

/-- Witness for the amended C6 at mode `bogus`. -/
theorem c6_unknown_mode_fallback_amended_witness :
    findSites ("AAKRA".toList) "bogus" 0 1 =
      (scan2 strictOk (("AAKRA".toList).drop 0) 0).map
        (mkSiteP 2 0 (("AAKRA".toList).drop 0)) :=
  c6_unknown_mode_fallback_amended ("AAKRA".toList) 0 1 "bogus"
    (by decide) (by decide) (by decide) (by decide)

/-- Witness for C9 on the strict site of `AAKRA`. -/
theorem c9_site_position_motif_length_witness :
    (⟨4, ['K', 'R'], 2⟩ : CleavageSite).index <
      (⟨4, ['K', 'R'], 2⟩ : CleavageSite).position :=
  (c9_site_position_motif_length ("AAKRA".toList) "strict" 0 1
    ⟨4, ['K', 'R'], 2⟩ (by decide)).1

/-- Witness for C10 on a permissive extraction with one explicit site. -/
theorem c10_sequence_slice_consistency_witness :
    ((extract ("AAKRAA".toList) [⟨4, ['K', 'R'], 2⟩] 0 1 1
        "permissive").getD 0 dPep).sequence =
      seqSlice ("AAKRAA".toList)
        (((extract ("AAKRAA".toList) [⟨4, ['K', 'R'], 2⟩] 0 1 1
            "permissive").getD 0 dPep).start - 1)
        (((extract ("AAKRAA".toList) [⟨4, ['K', 'R'], 2⟩] 0 1 1
            "permissive").getD 0 dPep).end_) :=
  c10_sequence_slice_consistency ("AAKRAA".toList) [⟨4, ['K', 'R'], 2⟩]
    0 1 1 "permissive"
    ((extract ("AAKRAA".toList) [⟨4, ['K', 'R'], 2⟩] 0 1 1
        "permissive").getD 0 dPep) (by decide)

end PeptidePredictor
